import Mathlib

/-!
Verification of the multi-criteria analysis core (`analysis.py`) of the
game-theory country-comparison repository.

The embedding models a pandas `DataFrame` of entities × factor columns as a
list of rows; each row carries the entity identifier (the `Country` column)
and the factor values in the order of the `FACTOR_NAMES` list.  Machine
floats are modelled by exact rationals; Python's banker's rounding
(`round`, `Series.round`) is modelled by exact round-half-to-even on `ℚ`.
Fallible operations (Python exceptions: `ZeroDivisionError`, `KeyError`,
`IndexError`) are modelled by `Option`, with `none` for any raised
exception.  `sort_values` is modelled by a stable sort.
-/

namespace CountryAnalysis

/-- A row of a FactorTable: the `Country` identifier plus the factor values,
listed in the order of the factor-name list (`FACTOR_NAMES` in `data.py`). -/
structure Row where
  country : String
  vals : List ℚ
deriving Repr, DecidableEq, Inhabited

/-- A row of the ScoredTable produced by `compute_weighted_utility`:
the original data plus the `Weighted Score` and `Rank` columns. -/
structure ScoredRow where
  country : String
  vals : List ℚ
  score : ℚ
  rank : ℕ
deriving Repr, DecidableEq, Inhabited

/-- Round-half-to-even to an integer (Python's `round` / numpy rounding,
idealised over exact rationals). -/
def roundHalfEven (q : ℚ) : ℤ :=
  if q - ⌊q⌋ < 1/2 then ⌊q⌋
  else if 1/2 < q - ⌊q⌋ then ⌊q⌋ + 1
  else if ⌊q⌋ % 2 = 0 then ⌊q⌋ else ⌊q⌋ + 1

/-- `Series.round(2)` in `compute_weighted_utility`. -/
def round2 (q : ℚ) : ℚ := (roundHalfEven (q * 100) : ℚ) / 100

/-- `round(diff, 1)` in `build_tradeoff_matrix`. -/
def round1 (q : ℚ) : ℚ := (roundHalfEven (q * 10) : ℚ) / 10

/-- `Series.rank(ascending=False)` with the pandas default `method='average'`,
followed by `astype(int)` (truncation): a value tying with `t` values (itself
included) and exceeded by `g` values gets the truncated average position
`⌊g + (t+1)/2⌋ = (2*g + t + 1) / 2`. -/
def rankOf (scores : List ℚ) (s : ℚ) : ℕ :=
  (2 * scores.countP (fun t => decide (s < t)) + scores.countP (fun t => decide (t = s)) + 1) / 2

/-- Stable insertion into a list sorted descending by `score`
(an earlier row is kept in front of later rows with an equal score). -/
def insertScoreDesc (r : ScoredRow) : List ScoredRow → List ScoredRow
  | [] => [r]
  | x :: xs => if r.score < x.score then x :: insertScoreDesc r xs else r :: x :: xs

/-- Stable sort, descending by `score`: models
`df.sort_values("Weighted Score", ascending=False)`. -/
def sortScoreDesc : List ScoredRow → List ScoredRow
  | [] => []
  | x :: xs => insertScoreDesc x (sortScoreDesc xs)

/-- The normalization step of `compute_weighted_utility`:
`total = sum(weights.values()); w = {k: v / total}` followed by the lookups
`w[f] for f in FACTOR_NAMES`.  A nonempty weight dict with zero total raises
`ZeroDivisionError`; a factor name absent from the dict raises `KeyError`;
both are modelled by `none`.  (An empty weight dict raises nothing at the
normalization itself, matching the Python comprehension.)
`lookupNormalized` performs the per-factor lookups `w[f]`, each normalized
weight being `v / total`. -/
def lookupNormalized (weights : List (String × ℚ)) (total : ℚ) :
    List String → Option (List ℚ)
  | [] => some []
  | f :: fs =>
    match weights.lookup f with
    | none => none
    | some v => (lookupNormalized weights total fs).map fun rest => v / total :: rest

/-- See `lookupNormalized`: the zero-total guard plus the lookups. -/
def normalizedWeights (factorNames : List String) (weights : List (String × ℚ)) :
    Option (List ℚ) :=
  if weights ≠ [] ∧ (weights.map Prod.snd).sum = 0 then none
  else lookupNormalized weights ((weights.map Prod.snd).sum) factorNames

/-- `compute_weighted_utility(factor_df, weights)` from `analysis.py`:
normalize the weights, add the `Weighted Score` column
(`sum(df[f] * w[f] for f in FACTOR_NAMES)`, rounded to 2 decimals), add the
`Rank` column (`rank(ascending=False).astype(int)`), and sort descending by
score. -/
def computeWeightedUtility (factorNames : List String) (rows : List Row)
    (weights : List (String × ℚ)) : Option (List ScoredRow) :=
  (normalizedWeights factorNames weights).map fun nw =>
    let scored := rows.map fun r =>
      { country := r.country, vals := r.vals,
        score := round2 (List.zipWith (fun v w => v * w) r.vals nw).sum,
        rank := 0 : ScoredRow }
    let scores := scored.map (fun r => r.score)
    sortScoreDesc (scored.map fun r => { r with rank := rankOf scores r.score })

/-- The inner domination check of `find_pareto_optimal`:
`np.all(scores[j] >= scores[i]) and np.any(scores[j] > scores[i])`, i.e.
`a` dominates `b` iff `a` is `≥` in every factor column and `>` in at least
one (elementwise over the factor columns). -/
def dominatesB (a b : List ℚ) : Bool :=
  ((List.zip a b).all fun p => decide (p.2 ≤ p.1)) &&
    ((List.zip a b).any fun p => decide (p.2 < p.1))

/-- The factor values of row `i` (row-major access into the factor matrix).
Out-of-range indices, which `find_pareto_optimal` never produces, give `[]`. -/
def valsAt (rows : List Row) (i : ℕ) : List ℚ :=
  ((rows.get? i).map Row.vals).getD []

/-- `find_pareto_optimal(factor_df)` from `analysis.py`: mark row `i`
dominated iff some row `j ≠ i` dominates it, and return the `Country`
entries of the non-dominated rows in row order. -/
def findParetoOptimal (rows : List Row) : List String :=
  (List.range rows.length).filterMap fun i =>
    if (List.range rows.length).any fun j =>
        decide (j ≠ i) && dominatesB (valsAt rows j) (valsAt rows i)
    then none
    else (rows.get? i).map Row.country

/-- A point handed to the 2-D frontier sweep: the `Country` label and the
values of the two selected factor columns. -/
structure Pt where
  country : String
  x : ℚ
  y : ℚ
deriving Repr, DecidableEq, Inhabited

/-- Stable insertion into a list sorted descending by `x`. -/
def insertXDesc (p : Pt) : List Pt → List Pt
  | [] => [p]
  | q :: qs => if p.x < q.x then q :: insertXDesc p qs else p :: q :: qs

/-- Stable sort, descending by `x`: models
`df.sort_values(x_col, ascending=False)`. -/
def sortXDesc : List Pt → List Pt
  | [] => []
  | p :: ps => insertXDesc p (sortXDesc ps)

/-- Stable insertion into a list sorted ascending by `x`. -/
def insertXAsc (p : Pt) : List Pt → List Pt
  | [] => [p]
  | q :: qs => if q.x < p.x then q :: insertXAsc p qs else p :: q :: qs

/-- Stable sort, ascending by `x`: models
`df.sort_values(x_col, ascending=True)`. -/
def sortXAsc : List Pt → List Pt
  | [] => []
  | p :: ps => insertXAsc p (sortXAsc ps)

/-- The sweep loop of `pareto_frontier_2d`: walk the points from highest `x`
to lowest, keep a point iff its `y` is `≥` the running maximum (`max_y`
starts at `-np.inf`, modelled by `none`), updating the maximum on keep. -/
def sweepMax : List Pt → Option ℚ → List Pt
  | [], _ => []
  | p :: ps, m =>
    if m.all fun v => decide (v ≤ p.y) then p :: sweepMax ps (some p.y)
    else sweepMax ps m

/-- `pareto_frontier_2d(factor_df, x_col, y_col)` from `analysis.py`:
project to the two factor columns, sweep in `x`-descending order keeping the
running-maximum `y` points, and return the kept points sorted ascending by
`x`.  (The function's initial ascending sort is discarded by the sweep's own
descending sort and affects nothing.) -/
def paretoFrontier2d (pts : List Pt) : List Pt :=
  sortXAsc (sweepMax (sortXDesc pts) none)

/-- The value of factor column `k` in row `i`, as scanned by the detectors
(`0` for out-of-range access, which the claims' hypotheses exclude). -/
def valAt (rows : List Row) (i k : ℕ) : ℚ :=
  (valsAt rows i).getD k 0

/-- Factor column `k` as a list (`factor_df[f]` for the `k`-th factor). -/
def colVals (rows : List Row) (k : ℕ) : List ℚ :=
  rows.map fun r => r.vals.getD k 0

/-- `Series.idxmax()`: the first index attaining the maximum of the column
(pandas keeps the first occurrence on ties). -/
def idxmax (l : List ℚ) : ℕ :=
  l.findIdx fun v => decide (∀ w ∈ l, w ≤ v)

/-- `find_dominant_strategy(factor_df)` from `analysis.py` for a table with
`K` factor columns: record, per factor, the `Country` at the column's
`idxmax`; if the set of recorded countries is a singleton return it, else
`None`.  (The source raises on an empty table; the claims only concern
non-empty tables, where the `getD ""` default is never taken.) -/
def findDominantStrategy (K : ℕ) (rows : List Row) : Option String :=
  let bests := (List.range K).map fun k =>
    (((rows.get? (idxmax (colVals rows k))).map Row.country).getD "")
  match bests with
  | [] => none
  | b :: bs => if bs.all fun c => decide (c = b) then some b else none

/-- The arithmetic mean across a row's factor values
(`df[FACTOR_NAMES].mean(axis=1)`). -/
def factorMean (vals : List ℚ) : ℚ := vals.sum / vals.length

/-- The sample variance across a row's factor values: the square of
`df[FACTOR_NAMES].std(axis=1)` (pandas default `ddof=1`).  Comparing rows by
sample variance is order-equivalent to comparing them by sample standard
deviation, since the square root is strictly monotone on nonnegatives; this
keeps the whole computation inside `ℚ`. -/
def sampleVariance (vals : List ℚ) : ℚ :=
  (vals.map fun v => (v - factorMean vals) ^ 2).sum / ((vals.length : ℚ) - 1)

/-- Strict order on the sort key of `find_nash_equilibrium`
(`Factor Std` ascending, then `Factor Mean` descending): `a` strictly
precedes `b`. -/
def nashKeyLt (a b : Row) : Prop :=
  sampleVariance a.vals < sampleVariance b.vals ∨
    (sampleVariance a.vals = sampleVariance b.vals ∧
      factorMean b.vals < factorMean a.vals)

instance (a b : Row) : Decidable (nashKeyLt a b) := by
  unfold nashKeyLt; infer_instance

/-- Non-strict companion of `nashKeyLt`. -/
def nashKeyLe (a b : Row) : Prop :=
  sampleVariance a.vals < sampleVariance b.vals ∨
    (sampleVariance a.vals = sampleVariance b.vals ∧
      factorMean b.vals ≤ factorMean a.vals)

/-- `find_nash_equilibrium(factor_df)` from `analysis.py`: sort by
`["Factor Std", "Factor Mean"]` with `ascending=[True, False]` and return
`df.iloc[0]["Country"]`.  The head of that (stable) sort is the first row
attaining the lexicographic minimum of the key, computed here by a fold that
replaces the running best only on a strictly better key.  The source raises
`IndexError` on a zero-row table, modelled by `none`. -/
def findNashEquilibrium : List Row → Option String
  | [] => none
  | r :: rs =>
    some ((rs.foldl (fun best x => if nashKeyLt x best then x else best) r).country)

/-- The exception surface of the Balance Evaluator.  `indexError` is what
`df.iloc[0]` raises on a zero-row frame in `find_nash_equilibrium`.
`emptyInputError` is modelled from the spec: §7 of the spec names an
`EmptyInputError` class for the zero-row case, but no such class is defined
anywhere in the repository; the constructor exists only so that the claimed
failure mode can be stated and compared with the real one. -/
inductive PyError where
  | indexError : PyError
  | emptyInputError : PyError
deriving Repr, DecidableEq

/-- `find_nash_equilibrium` with its raised exception made explicit: the
same computation as `findNashEquilibrium`, except that the zero-row failure
carries the exception class the source actually raises — pandas' plain
`IndexError` from `df.iloc[0]` — rather than an anonymous `none`. -/
def findNashEquilibriumE : List Row → Except PyError String
  | [] => Except.error PyError.indexError
  | r :: rs =>
    Except.ok ((rs.foldl (fun best x => if nashKeyLt x best then x else best) r).country)

/-- A row of the trade-off matrix: the entity, its weighted score, and the
per-factor deltas to the best-in-subset values. -/
structure TradeRec where
  country : String
  score : ℚ
  deltas : List ℚ
deriving Repr, DecidableEq, Inhabited

/-- `Series.max()` over a column (the claims' hypotheses keep it non-empty,
where the `0` default for `[]` is never taken). -/
def listMax : List ℚ → ℚ
  | [] => 0
  | v :: vs => vs.foldl max v

/-- Factor column `k` of a scored table. -/
def scoredColVals (rows : List ScoredRow) (k : ℕ) : List ℚ :=
  rows.map fun r => r.vals.getD k 0

/-- `build_tradeoff_matrix(scored_df, top_n)` from `analysis.py` for a table
with `K` factor columns: restrict to the first `top_n` rows (`df.head`),
take the per-factor maximum within that subset, and emit per row the deltas
`round(row[f] - best[f], 1)`. -/
def buildTradeoffMatrix (K : ℕ) (rows : List ScoredRow) (topN : ℕ) : List TradeRec :=
  let df := rows.take topN
  df.map fun r =>
    { country := r.country, score := r.score,
      deltas := (List.range K).map fun k =>
        round1 (r.vals.getD k 0 - listMax (scoredColVals df k)) }

/-! ## Helper lemmas: rounding -/

theorem roundHalfEven_intCast (n : ℤ) : roundHalfEven (n : ℚ) = n := by
  simp [roundHalfEven]

theorem round2_intCast (n : ℤ) : round2 (n : ℚ) = n := by
  have h : ((n : ℚ)) * 100 = ((n * 100 : ℤ) : ℚ) := by push_cast; ring
  rw [round2, h, roundHalfEven_intCast]
  push_cast
  field_simp

theorem roundHalfEven_nonpos {q : ℚ} (hq : q ≤ 0) : roundHalfEven q ≤ 0 := by
  have hf : ⌊q⌋ ≤ 0 := by
    exact_mod_cast Int.floor_le_floor (le_refl q) |>.trans (by simpa using Int.floor_le_floor hq)
  by_cases h0 : ⌊q⌋ = 0
  · have hq0 : q = 0 := by
      have h1 : (⌊q⌋ : ℚ) ≤ q := Int.floor_le q
      rw [h0] at h1
      push_cast at h1
      linarith
    simp [roundHalfEven, hq0]
  · have hneg : ⌊q⌋ + 1 ≤ 0 := by omega
    unfold roundHalfEven
    split
    · exact hf
    · split
      · exact hneg
      · split
        · exact hf
        · exact hneg

theorem round1_nonpos {q : ℚ} (hq : q ≤ 0) : round1 q ≤ 0 := by
  have h : roundHalfEven (q * 10) ≤ 0 := roundHalfEven_nonpos (by linarith)
  rw [round1]
  have h10 : (0 : ℚ) < 10 := by norm_num
  have : (roundHalfEven (q * 10) : ℚ) ≤ 0 := by exact_mod_cast h
  linarith [div_nonpos_of_nonpos_of_nonneg this (by norm_num : (0:ℚ) ≤ 10)]

theorem round1_zero : round1 0 = 0 := by
  have := roundHalfEven_intCast 0
  norm_num at this
  simp [round1, this]

/-! ## Helper lemmas: the stable descending sort of the scorer -/

theorem insertScoreDesc_perm (r : ScoredRow) (l : List ScoredRow) :
    List.Perm (insertScoreDesc r l) (r :: l) := by
  induction l with
  | nil => rfl
  | cons x xs ih =>
    rw [insertScoreDesc]
    split
    · exact (ih.cons x).trans (List.Perm.swap r x xs)
    · rfl

theorem sortScoreDesc_perm (l : List ScoredRow) : List.Perm (sortScoreDesc l) l := by
  induction l with
  | nil => rfl
  | cons x xs ih =>
    rw [sortScoreDesc]
    exact (insertScoreDesc_perm x (sortScoreDesc xs)).trans (ih.cons x)

theorem mem_sortScoreDesc {r : ScoredRow} {l : List ScoredRow} :
    r ∈ sortScoreDesc l ↔ r ∈ l :=
  (sortScoreDesc_perm l).mem_iff

/-! ## Shared concrete fixtures (the spec's three-entity scenario) -/

def exFactors : List String := ["F1", "F2"]

def exRows : List Row := [⟨"A", [100, 0]⟩, ⟨"B", [0, 100]⟩, ⟨"C", [50, 50]⟩]

def exWeights : List (String × ℚ) := [("F1", 1), ("F2", 1)]

def exScored : List ScoredRow :=
  [⟨"A", [100, 0], 50, 2⟩, ⟨"B", [0, 100], 50, 2⟩, ⟨"C", [50, 50], 50, 2⟩]

/-- Full evaluation of the scorer on the spec's three-entity scenario with
equal weights: every weighted score is `50` and every rank is `2` (the
truncated average of the tied positions `1, 2, 3`). -/
theorem exEval : computeWeightedUtility exFactors exRows exWeights = some exScored := by
  have hnw : normalizedWeights exFactors exWeights = some [1/2, 1/2] := by
    norm_num [normalizedWeights, lookupNormalized, exFactors, exWeights, List.lookup]
    simp
  have h50 : round2 (50 : ℚ) = 50 := by
    have := round2_intCast 50; norm_num at this; exact this
  rw [computeWeightedUtility, hnw]
  simp only [Option.map_some, exRows, exScored, List.map_cons, List.map_nil, List.zipWith,
    List.sum_cons, List.sum_nil]
  norm_num [h50, rankOf, List.countP, List.countP.go, sortScoreDesc, insertScoreDesc]

/-- C1 counterexample: on the spec's scenario (equal weights over
A{100,0}, B{0,100}, C{50,50}) every rank is `2`, not `1` as the claim
demands — pandas' default `method='average'` ranking gives the three-way tie
the truncated average position `int((1+2+3)/3) = 2`, not the lowest
position of the tied group. -/
theorem rank_of_full_tie_is_two_not_one :
    ((computeWeightedUtility exFactors exRows exWeights).map
      (List.map fun r => r.rank) = some [2, 2, 2]) ∧
    (computeWeightedUtility exFactors exRows exWeights).map
      (List.map fun r => r.rank) ≠ some [1, 1, 1] := by
  rw [exEval]
  constructor
  · simp [exScored]
  · simp [exScored]

/-- C1 (amended): the scenario yields WeightedScore `50.0` and Rank `2` for
all three entities; in general, entities with equal WeightedScore do receive
the same rank (the shared value being the integer truncation of the average
tied position, which coincides with the lowest position of the group only
for tie groups of at most two). -/
theorem equal_scores_equal_ranks :
    ((computeWeightedUtility exFactors exRows exWeights).map
      (List.map fun r => (r.score, r.rank)) = some [(50, 2), (50, 2), (50, 2)]) ∧
    ∀ (fn : List String) (rows : List Row) (w : List (String × ℚ)) (out : List ScoredRow),
      computeWeightedUtility fn rows w = some out →
      ∀ r1 ∈ out, ∀ r2 ∈ out, r1.score = r2.score → r1.rank = r2.rank := by
  constructor
  · rw [exEval]; simp [exScored]
  · intro fn rows w out h r1 h1 r2 h2 hs
    rw [computeWeightedUtility] at h
    obtain ⟨nw, hnw, hout⟩ := Option.map_eq_some'.mp h
    set scored := rows.map fun r =>
      { country := r.country, vals := r.vals,
        score := round2 (List.zipWith (fun v w => v * w) r.vals nw).sum,
        rank := 0 : ScoredRow } with hscored
    have hrank : ∀ r ∈ out, r.rank = rankOf (scored.map fun r => r.score) r.score := by
      intro r hr
      rw [← hout] at hr
      have hr2 := mem_sortScoreDesc.mp hr
      obtain ⟨r0, _, hr0⟩ := List.mem_map.mp hr2
      rw [← hr0]
    rw [hrank r1 h1, hrank r2 h2, hs]

/-- Witness for the amended C1: its general part applied to the concrete
scenario, first and third output rows. -/
theorem equal_scores_equal_ranks_witness :
    (⟨"A", [100, 0], 50, 2⟩ : ScoredRow).rank = (⟨"C", [50, 50], 50, 2⟩ : ScoredRow).rank :=
  equal_scores_equal_ranks.2 exFactors exRows exWeights exScored exEval
    ⟨"A", [100, 0], 50, 2⟩ (by simp [exScored]) ⟨"C", [50, 50], 50, 2⟩ (by simp [exScored]) rfl

/-- C2 counterexample: a weight vector containing a negative weight
(`F1 ↦ -1`, `F2 ↦ 3`) is accepted without any error — the scorer returns a
result, contradicting the claim that it always fails on a negative weight. -/
theorem negative_weight_accepted :
    (computeWeightedUtility exFactors exRows [("F1", -1), ("F2", 3)]).isSome = true := by
  have hnw : normalizedWeights exFactors [("F1", -1), ("F2", 3)] =
      some [(-1 : ℚ)/2, 3/2] := by
    norm_num [normalizedWeights, lookupNormalized, exFactors, List.lookup]
    simp
  rw [computeWeightedUtility, hnw]
  rfl

/-- C2 (amended): `compute_weighted_utility` performs no validation of the
weight vector.  It fails exactly when the weights are nonempty and sum to
zero (a `ZeroDivisionError` at normalization) or when some factor column of
the table is missing from the weights (a `KeyError`); negative weights and
unrecognized names in the weights never cause a failure (an unrecognized
name is not rejected — it silently inflates the normalization total). -/
theorem cwu_isSome_iff (fn : List String) (rows : List Row) (w : List (String × ℚ)) :
    (computeWeightedUtility fn rows w).isSome = true ↔
      ¬ (w ≠ [] ∧ (w.map Prod.snd).sum = 0) ∧ ∀ f ∈ fn, (w.lookup f).isSome = true := by
  have hln : ∀ (t : ℚ) (fs : List String),
      (lookupNormalized w t fs).isSome = true ↔ ∀ f ∈ fs, (w.lookup f).isSome = true := by
    intro t fs
    induction fs with
    | nil => simp [lookupNormalized]
    | cons f fs ih =>
      cases h : w.lookup f with
      | none =>
        rw [lookupNormalized, h]
        simp only [Option.isSome_none, Bool.false_eq_true, false_iff]
        intro hall
        have hf := hall f (by simp)
        rw [h] at hf
        simp at hf
      | some v =>
        rw [lookupNormalized, h, List.forall_mem_cons, Option.isSome_map', ih, h]
        simp
  rw [computeWeightedUtility, Option.isSome_map', normalizedWeights]
  split
  · rename_i hcond
    exact iff_of_false (by simp) fun hr => hr.1 hcond
  · rename_i hcond
    rw [hln]
    exact ⟨fun h => ⟨hcond, h⟩, fun h => h.2⟩

/-! ## Helper lemmas: weight scaling (C3) -/

theorem lookup_scaled (c : ℚ) (w : List (String × ℚ)) (f : String) :
    (w.map fun p => (p.1, c * p.2)).lookup f = (w.lookup f).map fun v => c * v := by
  induction w with
  | nil => rfl
  | cons p ps ih =>
    simp only [List.map_cons, List.lookup]
    cases h : f == p.1 with
    | true => simp
    | false => simpa using ih

theorem sum_scaled (c : ℚ) (w : List (String × ℚ)) :
    ((w.map fun p => (p.1, c * p.2)).map Prod.snd).sum = c * (w.map Prod.snd).sum := by
  induction w with
  | nil => simp
  | cons p ps ih =>
    simp only [List.map_cons, List.sum_cons, mul_add]
    rw [← ih]

theorem lookupNormalized_scaled {c : ℚ} (hc : c ≠ 0) (w : List (String × ℚ)) (t : ℚ)
    (fs : List String) :
    lookupNormalized (w.map fun p => (p.1, c * p.2)) (c * t) fs =
      lookupNormalized w t fs := by
  induction fs with
  | nil => rfl
  | cons f fs ih =>
    rw [lookupNormalized, lookupNormalized, lookup_scaled]
    cases h : w.lookup f with
    | none => simp
    | some v =>
      have hm : (Option.map (fun v => c * v) (some v) : Option ℚ) = some (c * v) := rfl
      rw [hm]
      have hdiv : c * v / (c * t) = v / t := mul_div_mul_left v t hc
      simp only [ih, hdiv]

/-- C3: scaling every weight by a common positive factor `c` leaves the
WeightedScore column (indeed the entire scored output) unchanged — the
normalization `w_i / Σw` cancels the factor exactly. -/
theorem weighted_score_scale_invariant (fn : List String) (rows : List Row)
    (w : List (String × ℚ)) (c : ℚ) (hc : 0 < c) :
    (computeWeightedUtility fn rows (w.map fun p => (p.1, c * p.2))).map
        (List.map fun r => r.score) =
      (computeWeightedUtility fn rows w).map (List.map fun r => r.score) := by
  suffices h : computeWeightedUtility fn rows (w.map fun p => (p.1, c * p.2)) =
      computeWeightedUtility fn rows w by rw [h]
  rw [computeWeightedUtility, computeWeightedUtility, normalizedWeights, normalizedWeights,
    sum_scaled, lookupNormalized_scaled hc.ne' w _ fn]
  have hcond : ((w.map fun p => (p.1, c * p.2)) ≠ [] ∧ c * (w.map Prod.snd).sum = 0) ↔
      (w ≠ [] ∧ (w.map Prod.snd).sum = 0) := by
    rw [mul_eq_zero]
    simp [hc.ne']
  rw [if_congr hcond rfl rfl]

/-- Witness for C3: the scale-invariance applied to the concrete scenario
with `c = 2`. -/
theorem weighted_score_scale_invariant_witness :
    (0 : ℚ) < 2 ∧
      (computeWeightedUtility exFactors exRows (exWeights.map fun p => (p.1, 2 * p.2))).map
          (List.map fun r => r.score) =
        (computeWeightedUtility exFactors exRows exWeights).map
          (List.map fun r => r.score) :=
  ⟨by norm_num, weighted_score_scale_invariant exFactors exRows exWeights 2 (by norm_num)⟩

/-! ## Helper lemmas: elementwise comparisons over factor vectors -/

theorem zip_all_le_iff : ∀ (a b : List ℚ), a.length = b.length →
    (((List.zip a b).all fun p => decide (p.2 ≤ p.1)) = true ↔
      ∀ k, k < b.length → b.getD k 0 ≤ a.getD k 0)
  | [], [], _ => by simp
  | [], y :: ys, h => by simp at h
  | x :: xs, [], h => by simp at h
  | x :: xs, y :: ys, h => by
    have ih := zip_all_le_iff xs ys (by simpa using h)
    simp only [List.zip_cons_cons, List.all_cons, Bool.and_eq_true, decide_eq_true_eq, ih]
    constructor
    · rintro ⟨h1, h2⟩ k hk
      cases k with
      | zero => simpa using h1
      | succ k => simpa using h2 k (by simpa using hk)
    · intro hall
      exact ⟨by simpa using hall 0 (by simp),
        fun k hk => by simpa using hall (k + 1) (by simpa using hk)⟩

theorem zip_any_lt_iff : ∀ (a b : List ℚ), a.length = b.length →
    (((List.zip a b).any fun p => decide (p.2 < p.1)) = true ↔
      ∃ k, k < b.length ∧ b.getD k 0 < a.getD k 0)
  | [], [], _ => by simp
  | [], y :: ys, h => by simp at h
  | x :: xs, [], h => by simp at h
  | x :: xs, y :: ys, h => by
    have ih := zip_any_lt_iff xs ys (by simpa using h)
    simp only [List.zip_cons_cons, List.any_cons, Bool.or_eq_true, decide_eq_true_eq, ih]
    constructor
    · rintro (h1 | ⟨k, hk, hlt⟩)
      · exact ⟨0, by simp, by simpa using h1⟩
      · exact ⟨k + 1, by simpa using hk, by simpa using hlt⟩
    · rintro ⟨k, hk, hlt⟩
      cases k with
      | zero => exact Or.inl (by simpa using hlt)
      | succ k => exact Or.inr ⟨k, by simpa using hk, by simpa using hlt⟩

theorem dominatesB_iff {a b : List ℚ} (h : a.length = b.length) :
    dominatesB a b = true ↔
      ((∀ k, k < b.length → b.getD k 0 ≤ a.getD k 0) ∧
        ∃ k, k < b.length ∧ b.getD k 0 < a.getD k 0) := by
  rw [dominatesB, Bool.and_eq_true, zip_all_le_iff a b h, zip_any_lt_iff a b h]

theorem valsAt_eq (rows : List Row) (j : ℕ) (hj : j < rows.length) :
    valsAt rows j = (rows.get ⟨j, hj⟩).vals := by
  rw [valsAt, List.get?_eq_get hj]
  rfl

/-- C4: `find_pareto_optimal` returns exactly the non-dominated entities.
For a table with unique entity identifiers and uniform factor count `K`, an
entity is in the returned list iff no other row is `≥` in every factor and
`>` in at least one.  (Rows equal in all factors never dominate each other
— the strict `∃` fails — so both remain in the result.) -/
theorem pareto_sound_complete (rows : List Row) (K : ℕ)
    (hlen : ∀ r ∈ rows, r.vals.length = K)
    (hnd : (rows.map Row.country).Nodup)
    (i : ℕ) (hi : i < rows.length) :
    (rows.get ⟨i, hi⟩).country ∈ findParetoOptimal rows ↔
      ¬ ∃ j, ∃ hj : j < rows.length, j ≠ i ∧
        (∀ k, k < K → valAt rows i k ≤ valAt rows j k) ∧
        ∃ k, k < K ∧ valAt rows i k < valAt rows j k := by
  have hlenj : ∀ (j : ℕ), (hj : j < rows.length) → (valsAt rows j).length = K := by
    intro j hj
    rw [valsAt_eq rows j hj]
    exact hlen _ (rows.get_mem _ _)
  have hdomiff : ∀ (j : ℕ), (hj : j < rows.length) →
      (dominatesB (valsAt rows j) (valsAt rows i) = true ↔
        ((∀ k, k < K → valAt rows i k ≤ valAt rows j k) ∧
          ∃ k, k < K ∧ valAt rows i k < valAt rows j k)) := by
    intro j hj
    have h1 : (valsAt rows j).length = (valsAt rows i).length := by
      rw [hlenj j hj, hlenj i hi]
    rw [dominatesB_iff h1, hlenj i hi]
    exact Iff.rfl
  have hguard : ∀ (a : ℕ), a < rows.length →
      (((List.range rows.length).any fun j =>
          decide (j ≠ a) && dominatesB (valsAt rows j) (valsAt rows a)) = true ↔
        ∃ j, ∃ hj : j < rows.length, j ≠ a ∧
          dominatesB (valsAt rows j) (valsAt rows a) = true) := by
    intro a _
    rw [List.any_eq_true]
    constructor
    · rintro ⟨j, hjmem, hj⟩
      rw [Bool.and_eq_true, decide_eq_true_eq] at hj
      exact ⟨j, List.mem_range.mp hjmem, hj.1, hj.2⟩
    · rintro ⟨j, hj, hne, hdom⟩
      refine ⟨j, List.mem_range.mpr hj, ?_⟩
      rw [Bool.and_eq_true, decide_eq_true_eq]
      exact ⟨hne, hdom⟩
  have hinj : ∀ (a : ℕ) (ha : a < rows.length),
      (rows.get ⟨a, ha⟩).country = (rows.get ⟨i, hi⟩).country → a = i := by
    intro a ha hc
    have hinj2 := List.nodup_iff_injective_get.mp hnd
    have hma : (rows.map Row.country).get ⟨a, by simpa using ha⟩ =
        (rows.map Row.country).get ⟨i, by simpa using hi⟩ := by
      rw [List.get_map, List.get_map]
      exact hc
    have := hinj2 hma
    exact congrArg Fin.val this
  rw [findParetoOptimal, List.mem_filterMap]
  constructor
  · rintro ⟨a, hamem, hfa⟩ hex
    have ha : a < rows.length := List.mem_range.mp hamem
    by_cases hg : ((List.range rows.length).any fun j =>
        decide (j ≠ a) && dominatesB (valsAt rows j) (valsAt rows a)) = true
    · rw [if_pos hg] at hfa
      exact Option.noConfusion hfa
    · rw [if_neg hg] at hfa
      rw [List.get?_eq_get ha] at hfa
      have hac : (rows.get ⟨a, ha⟩).country = (rows.get ⟨i, hi⟩).country :=
        Option.some.inj hfa
      have hai : a = i := hinj a ha hac
      subst hai
      obtain ⟨j, hj, hne, hall, hanyk⟩ := hex
      exact hg ((hguard a ha).mpr ⟨j, hj, hne, (hdomiff j hj).mpr ⟨hall, hanyk⟩⟩)
  · intro hex
    refine ⟨i, List.mem_range.mpr hi, ?_⟩
    have hg : ¬ ((List.range rows.length).any fun j =>
        decide (j ≠ i) && dominatesB (valsAt rows j) (valsAt rows i)) = true := by
      intro hg
      obtain ⟨j, hj, hne, hdom⟩ := (hguard i hi).mp hg
      exact hex ⟨j, hj, hne, (hdomiff j hj).mp hdom⟩
    rw [if_neg hg, List.get?_eq_get hi]
    rfl

/-- Witness for C4: on the spec's three-entity table, entity "A" (row 0) is
in the Pareto set, and indeed no other row dominates it. -/
theorem pareto_sound_complete_witness :
    (∀ r ∈ exRows, r.vals.length = 2) ∧ (exRows.map Row.country).Nodup ∧
      ((exRows.get ⟨0, by simp [exRows]⟩).country ∈ findParetoOptimal exRows ↔
        ¬ ∃ j, ∃ hj : j < exRows.length, j ≠ 0 ∧
          (∀ k, k < 2 → valAt exRows 0 k ≤ valAt exRows j k) ∧
          ∃ k, k < 2 ∧ valAt exRows 0 k < valAt exRows j k) :=
  ⟨by decide, by decide,
    pareto_sound_complete exRows 2 (by decide) (by decide) 0 (by simp [exRows])⟩

/-! ## Helper lemmas: domination is strict on factor sums (C10) -/

theorem sum_le_of_zip_all : ∀ {a b : List ℚ}, a.length = b.length →
    ((List.zip a b).all fun p => decide (p.2 ≤ p.1)) = true → b.sum ≤ a.sum
  | [], [], _, _ => le_refl _
  | [], y :: ys, h, _ => by simp at h
  | x :: xs, [], h, _ => by simp at h
  | x :: xs, y :: ys, h, hall => by
    simp only [List.zip_cons_cons, List.all_cons, Bool.and_eq_true, decide_eq_true_eq] at hall
    have ih := sum_le_of_zip_all (a := xs) (b := ys) (by simpa using h) hall.2
    simp only [List.sum_cons]
    exact add_le_add hall.1 ih

theorem sum_lt_of_dominatesB : ∀ {a b : List ℚ}, a.length = b.length →
    dominatesB a b = true → b.sum < a.sum
  | [], [], _, hd => by simp [dominatesB] at hd
  | [], y :: ys, h, _ => by simp at h
  | x :: xs, [], h, _ => by simp at h
  | x :: xs, y :: ys, h, hd => by
    rw [dominatesB, Bool.and_eq_true] at hd
    obtain ⟨hall, hany⟩ := hd
    simp only [List.zip_cons_cons, List.all_cons, Bool.and_eq_true, decide_eq_true_eq] at hall
    simp only [List.zip_cons_cons, List.any_cons, Bool.or_eq_true, decide_eq_true_eq] at hany
    simp only [List.sum_cons]
    cases hany with
    | inl h1 =>
      have hrest := sum_le_of_zip_all (a := xs) (b := ys) (by simpa using h) hall.2
      exact add_lt_add_of_lt_of_le h1 hrest
    | inr h2 =>
      have hrest : ys.sum < xs.sum :=
        sum_lt_of_dominatesB (a := xs) (b := ys) (by simpa using h)
          (by rw [dominatesB, Bool.and_eq_true]; exact ⟨hall.2, h2⟩)
      exact add_lt_add_of_le_of_lt hall.1 hrest

/-- C10: for a non-empty table (with a uniform factor count) the Pareto set
is never empty — a row maximizing the sum of its factor values cannot be
dominated, since domination is strict on sums. -/
theorem pareto_nonempty (rows : List Row) (K : ℕ)
    (hlen : ∀ r ∈ rows, r.vals.length = K) (hne : rows ≠ []) :
    findParetoOptimal rows ≠ [] := by
  have hn : 0 < rows.length := List.length_pos.mpr hne
  obtain ⟨i0, hi0mem, hmax⟩ := Finset.exists_max_image (Finset.range rows.length)
    (fun i => (valsAt rows i).sum) ⟨0, Finset.mem_range.mpr hn⟩
  have hi0 : i0 < rows.length := Finset.mem_range.mp hi0mem
  have hguard : ¬ ((List.range rows.length).any fun j =>
      decide (j ≠ i0) && dominatesB (valsAt rows j) (valsAt rows i0)) = true := by
    intro hg
    obtain ⟨j, hjmem, hj⟩ := List.any_eq_true.mp hg
    rw [Bool.and_eq_true, decide_eq_true_eq] at hj
    have hjlt : j < rows.length := List.mem_range.mp hjmem
    have hlj : (valsAt rows j).length = (valsAt rows i0).length := by
      rw [valsAt_eq rows j hjlt, valsAt_eq rows i0 hi0]
      rw [hlen _ (rows.get_mem _ _), hlen _ (rows.get_mem _ _)]
    have hlt := sum_lt_of_dominatesB hlj hj.2
    have hle := hmax j (Finset.mem_range.mpr hjlt)
    exact absurd hlt (not_lt.mpr hle)
  have hmem : (rows.get ⟨i0, hi0⟩).country ∈ findParetoOptimal rows := by
    rw [findParetoOptimal, List.mem_filterMap]
    refine ⟨i0, List.mem_range.mpr hi0, ?_⟩
    rw [if_neg hguard, List.get?_eq_get hi0]
    rfl
  exact List.ne_nil_of_mem hmem

/-- Witness for C10: the spec's three-entity table is non-empty and its
Pareto set is non-empty. -/
theorem pareto_nonempty_witness :
    (∀ r ∈ exRows, r.vals.length = 2) ∧ exRows ≠ [] ∧ findParetoOptimal exRows ≠ [] :=
  ⟨by decide, by decide, pareto_nonempty exRows 2 (by decide) (by decide)⟩

/-! ## Helper lemmas: the frontier's sorts and sweep (C5) -/

theorem mem_insertXAsc {p q : Pt} : ∀ {l : List Pt}, q ∈ insertXAsc p l ↔ q = p ∨ q ∈ l
  | [] => by simp [insertXAsc]
  | r :: rs => by
    rw [insertXAsc]
    split
    · rw [List.mem_cons, mem_insertXAsc (l := rs), List.mem_cons]
      tauto
    · simp [List.mem_cons]

theorem insertXAsc_perm (p : Pt) (l : List Pt) :
    List.Perm (insertXAsc p l) (p :: l) := by
  induction l with
  | nil => rfl
  | cons r rs ih =>
    rw [insertXAsc]
    split
    · exact (ih.cons r).trans (List.Perm.swap p r rs)
    · rfl

theorem sortXAsc_perm (l : List Pt) : List.Perm (sortXAsc l) l := by
  induction l with
  | nil => rfl
  | cons p ps ih =>
    rw [sortXAsc]
    exact (insertXAsc_perm p (sortXAsc ps)).trans (ih.cons p)

theorem pairwise_insertXAsc {p : Pt} : ∀ {l : List Pt},
    (l.Pairwise fun a b => a.x ≤ b.x) →
    (insertXAsc p l).Pairwise fun a b => a.x ≤ b.x
  | [], _ => by simp [insertXAsc]
  | r :: rs, h => by
    obtain ⟨hr, hrs⟩ := List.pairwise_cons.mp h
    rw [insertXAsc]
    split
    · rename_i hlt
      rw [List.pairwise_cons]
      refine ⟨?_, pairwise_insertXAsc hrs⟩
      intro q hq
      rcases mem_insertXAsc.mp hq with hq | hq
      · rw [hq]; exact le_of_lt hlt
      · exact hr q hq
    · rename_i hnlt
      rw [List.pairwise_cons]
      refine ⟨?_, h⟩
      intro q hq
      rcases List.mem_cons.mp hq with hq | hq
      · rw [hq]; exact le_of_not_lt hnlt
      · exact le_trans (le_of_not_lt hnlt) (hr q hq)

theorem sortXAsc_sorted (l : List Pt) :
    (sortXAsc l).Pairwise fun a b => a.x ≤ b.x := by
  induction l with
  | nil => simp [sortXAsc]
  | cons p ps ih =>
    rw [sortXAsc]
    exact pairwise_insertXAsc ih

theorem mem_insertXDesc {p q : Pt} : ∀ {l : List Pt}, q ∈ insertXDesc p l ↔ q = p ∨ q ∈ l
  | [] => by simp [insertXDesc]
  | r :: rs => by
    rw [insertXDesc]
    split
    · rw [List.mem_cons, mem_insertXDesc (l := rs), List.mem_cons]
      tauto
    · simp [List.mem_cons]

theorem pairwise_insertXDesc {p : Pt} : ∀ {l : List Pt},
    (l.Pairwise fun a b => b.x ≤ a.x) →
    (insertXDesc p l).Pairwise fun a b => b.x ≤ a.x
  | [], _ => by simp [insertXDesc]
  | r :: rs, h => by
    obtain ⟨hr, hrs⟩ := List.pairwise_cons.mp h
    rw [insertXDesc]
    split
    · rename_i hlt
      rw [List.pairwise_cons]
      refine ⟨?_, pairwise_insertXDesc hrs⟩
      intro q hq
      rcases mem_insertXDesc.mp hq with hq | hq
      · rw [hq]; exact le_of_lt hlt
      · exact hr q hq
    · rename_i hnlt
      rw [List.pairwise_cons]
      refine ⟨?_, h⟩
      intro q hq
      rcases List.mem_cons.mp hq with hq | hq
      · rw [hq]; exact le_of_not_lt hnlt
      · exact le_trans (hr q hq) (le_of_not_lt hnlt)

theorem sortXDesc_sorted (l : List Pt) :
    (sortXDesc l).Pairwise fun a b => b.x ≤ a.x := by
  induction l with
  | nil => simp [sortXDesc]
  | cons p ps ih =>
    rw [sortXDesc]
    exact pairwise_insertXDesc ih

theorem sweepMax_subset : ∀ (l : List Pt) (m : Option ℚ) (q : Pt),
    q ∈ sweepMax l m → q ∈ l
  | [], _, _, h => by simp [sweepMax] at h
  | p :: ps, m, q, h => by
    rw [sweepMax] at h
    split at h
    · rcases List.mem_cons.mp h with h | h
      · exact h ▸ List.mem_cons_self p ps
      · exact List.mem_cons_of_mem p (sweepMax_subset ps _ q h)
    · exact List.mem_cons_of_mem p (sweepMax_subset ps m q h)

theorem sweepMax_lower : ∀ (l : List Pt) (v : ℚ) (q : Pt),
    q ∈ sweepMax l (some v) → v ≤ q.y
  | [], _, _, h => by simp [sweepMax] at h
  | p :: ps, v, q, h => by
    rw [sweepMax] at h
    split at h
    · rename_i hkeep
      simp only [Option.all_some, decide_eq_true_eq] at hkeep
      rcases List.mem_cons.mp h with h | h
      · rw [h]; exact hkeep
      · exact le_trans hkeep (sweepMax_lower ps p.y q h)
    · exact sweepMax_lower ps v q h

theorem sweepMax_chain : ∀ (l : List Pt) (m : Option ℚ),
    (l.Pairwise fun a b => b.x ≤ a.x) →
    (sweepMax l m).Pairwise fun a b => b.x ≤ a.x ∧ a.y ≤ b.y
  | [], _, _ => by simp [sweepMax]
  | p :: ps, m, h => by
    obtain ⟨hp, hps⟩ := List.pairwise_cons.mp h
    rw [sweepMax]
    split
    · rw [List.pairwise_cons]
      refine ⟨?_, sweepMax_chain ps (some p.y) hps⟩
      intro q hq
      exact ⟨hp q (sweepMax_subset ps _ q hq), sweepMax_lower ps p.y q hq⟩
    · exact sweepMax_chain ps m hps

/-- C5 counterexample: on the two-point table A(x=0, y=10), B(x=10, y=0)
the frontier, traversed in x-ascending order, is `[A, B]` with `y` values
`10, 0` — `y` strictly *decreases*, refuting the claimed non-decreasing `y`. -/
theorem frontier_y_not_nondecreasing :
    ¬ ((paretoFrontier2d [⟨"A", 0, 10⟩, ⟨"B", 10, 0⟩]).Pairwise
      fun a b => a.y ≤ b.y) := by
  have h : paretoFrontier2d [⟨"A", 0, 10⟩, ⟨"B", 10, 0⟩] =
      [⟨"A", 0, 10⟩, ⟨"B", 10, 0⟩] := by
    norm_num [paretoFrontier2d, sortXDesc, insertXDesc, sweepMax, sortXAsc, insertXAsc]
  rw [h]
  intro hp
  have := (List.pairwise_cons.mp hp).1 ⟨"B", 10, 0⟩ (by simp)
  norm_num at this

/-- C5 (amended): for every table and factor pair, the frontier returned by
`pareto_frontier_2d` in x-ascending order has non-decreasing `x`, and `y`
is non-*increasing* across strictly increasing `x` (equivalently, `y` is
non-decreasing when the staircase is swept from high `x` to low `x`, as
§4.2 of the spec states) — not non-decreasing as the claim says. -/
theorem frontier_monotone (pts : List Pt) :
    ((paretoFrontier2d pts).Pairwise fun a b => a.x ≤ b.x) ∧
      ((paretoFrontier2d pts).Pairwise fun a b => a.x < b.x → b.y ≤ a.y) := by
  constructor
  · exact sortXAsc_sorted _
  · have hchain := sweepMax_chain (sortXDesc pts) none (sortXDesc_sorted pts)
    have hsymrel : (sweepMax (sortXDesc pts) none).Pairwise fun a b =>
        (b.x ≤ a.x ∧ a.y ≤ b.y) ∨ (a.x ≤ b.x ∧ b.y ≤ a.y) :=
      hchain.imp fun h => Or.inl h
    have hsym : Symmetric fun a b : Pt =>
        (b.x ≤ a.x ∧ a.y ≤ b.y) ∨ (a.x ≤ b.x ∧ b.y ≤ a.y) := by
      intro a b h
      tauto
    have hout : (paretoFrontier2d pts).Pairwise fun a b =>
        (b.x ≤ a.x ∧ a.y ≤ b.y) ∨ (a.x ≤ b.x ∧ b.y ≤ a.y) := by
      rw [paretoFrontier2d]
      exact ((sortXAsc_perm (sweepMax (sortXDesc pts) none)).pairwise_iff
        (fun h => hsym h)).mpr hsymrel
    refine hout.imp ?_
    intro a b h
    rcases h with ⟨hx, _⟩ | ⟨_, hy⟩
    · intro hlt
      exact absurd hlt (not_lt.mpr hx)
    · intro _
      exact hy

/-! ## Helper lemmas: the Balance Evaluator's sort key (C6, C7) -/

theorem nashKeyLe_refl (a : Row) : nashKeyLe a a := Or.inr ⟨rfl, le_refl _⟩

theorem nashKeyLe_of_lt {a b : Row} (h : nashKeyLt a b) : nashKeyLe a b := by
  unfold nashKeyLt at h
  unfold nashKeyLe
  rcases h with h | ⟨he, hm⟩
  · exact Or.inl h
  · exact Or.inr ⟨he, le_of_lt hm⟩

theorem not_nashKeyLt_iff {a b : Row} : ¬ nashKeyLt a b ↔ nashKeyLe b a := by
  unfold nashKeyLt nashKeyLe
  constructor
  · intro h
    push_neg at h
    obtain ⟨h1, h2⟩ := h
    rcases eq_or_lt_of_le h1 with he | hlt
    · exact Or.inr ⟨he, h2 he.symm⟩
    · exact Or.inl hlt
  · rintro (h | ⟨he, hm⟩) (h2 | ⟨he2, hm2⟩) <;> linarith

theorem nashKeyLt_of_le_of_lt {a b c : Row} (h1 : nashKeyLe a b) (h2 : nashKeyLt b c) :
    nashKeyLt a c := by
  unfold nashKeyLe at h1
  unfold nashKeyLt at h2 ⊢
  rcases h1 with h1 | ⟨e1, m1⟩ <;> rcases h2 with h2 | ⟨e2, m2⟩
  · exact Or.inl (lt_trans h1 h2)
  · exact Or.inl (e2 ▸ h1)
  · exact Or.inl (e1 ▸ h2)
  · exact Or.inr ⟨e1.trans e2, lt_of_lt_of_le m2 m1⟩

theorem nashKeyLt_of_lt_of_le {a b c : Row} (h1 : nashKeyLt a b) (h2 : nashKeyLe b c) :
    nashKeyLt a c := by
  unfold nashKeyLt at h1 ⊢
  unfold nashKeyLe at h2
  rcases h1 with h1 | ⟨e1, m1⟩ <;> rcases h2 with h2 | ⟨e2, m2⟩
  · exact Or.inl (lt_trans h1 h2)
  · exact Or.inl (e2 ▸ h1)
  · exact Or.inl (e1 ▸ h2)
  · exact Or.inr ⟨e1.trans e2, lt_of_le_of_lt m2 m1⟩

/-- The fold of `find_nash_equilibrium` (the head of the stable sort by
`(Factor Std asc, Factor Mean desc)`) lands on the first row attaining the
lexicographic minimum of the key: it is key-`≤` every row and key-`<` every
earlier row. -/
theorem foldNash_spec : ∀ (rs : List Row) (r : Row),
    ∃ i, ∃ hi : i < (r :: rs).length,
      rs.foldl (fun best x => if nashKeyLt x best then x else best) r =
        (r :: rs).get ⟨i, hi⟩ ∧
      (∀ j, (hj : j < (r :: rs).length) →
        nashKeyLe ((r :: rs).get ⟨i, hi⟩) ((r :: rs).get ⟨j, hj⟩)) ∧
      (∀ j, (hj : j < (r :: rs).length) → j < i →
        nashKeyLt ((r :: rs).get ⟨i, hi⟩) ((r :: rs).get ⟨j, hj⟩))
  | [], r =>
    ⟨0, Nat.zero_lt_one, rfl,
      fun j hj => by
        have hj0 : j = 0 := by simpa using hj
        subst hj0
        exact nashKeyLe_refl r,
      fun j _ hji => absurd hji (Nat.not_lt_zero j)⟩
  | x :: xs, r => by
    rw [List.foldl_cons]
    by_cases hxr : nashKeyLt x r
    · rw [if_pos hxr]
      obtain ⟨i', hi', heq, hle, hltb⟩ := foldNash_spec xs x
      have hi2 : i' + 1 < (r :: x :: xs).length := by
        simpa using Nat.succ_lt_succ hi'
      have hgets : (r :: x :: xs).get ⟨i' + 1, hi2⟩ = (x :: xs).get ⟨i', hi'⟩ := rfl
      refine ⟨i' + 1, hi2, by rw [heq]; rfl, ?_, ?_⟩
      · intro j hj
        cases j with
        | zero =>
          have h0 := hle 0 (by simp)
          rw [hgets]
          exact nashKeyLe_of_lt (nashKeyLt_of_le_of_lt h0 hxr)
        | succ j =>
          have hj' : j < (x :: xs).length := by simpa using hj
          have := hle j hj'
          rw [hgets]
          exact this
      · intro j hj hji
        cases j with
        | zero =>
          have h0 := hle 0 (by simp)
          rw [hgets]
          exact nashKeyLt_of_le_of_lt h0 hxr
        | succ j =>
          have hj' : j < (x :: xs).length := by simpa using hj
          have := hltb j hj' (by omega)
          rw [hgets]
          exact this
    · rw [if_neg hxr]
      have hrx : nashKeyLe r x := not_nashKeyLt_iff.mp hxr
      obtain ⟨i', hi', heq, hle, hltb⟩ := foldNash_spec xs r
      cases i' with
      | zero =>
        refine ⟨0, by simp, by rw [heq]; rfl, ?_, ?_⟩
        · intro j hj
          cases j with
          | zero => exact nashKeyLe_refl r
          | succ j =>
            cases j with
            | zero => exact hrx
            | succ j =>
              have hj' : j + 1 < (r :: xs).length := by simpa using hj
              exact hle (j + 1) hj'
        · intro j _ hji
          exact absurd hji (Nat.not_lt_zero j)
      | succ k =>
        have hk : k < xs.length := by simpa using hi'
        have hi2 : k + 2 < (r :: x :: xs).length := by simpa using Nat.succ_lt_succ hi'
        have hgets : (r :: x :: xs).get ⟨k + 2, hi2⟩ = (r :: xs).get ⟨k + 1, hi'⟩ := rfl
        have hres_r : nashKeyLt ((r :: xs).get ⟨k + 1, hi'⟩) r :=
          hltb 0 (by simp) (by omega)
        refine ⟨k + 2, hi2, by rw [heq]; rfl, ?_, ?_⟩
        · intro j hj
          cases j with
          | zero =>
            rw [hgets]
            exact hle 0 (by simp)
          | succ j =>
            cases j with
            | zero =>
              rw [hgets]
              exact nashKeyLe_of_lt (nashKeyLt_of_lt_of_le hres_r hrx)
            | succ j =>
              have hj' : j + 1 < (r :: xs).length := by simpa using hj
              rw [hgets]
              exact hle (j + 1) hj'
        · intro j hj hji
          cases j with
          | zero =>
            rw [hgets]
            exact hres_r
          | succ j =>
            cases j with
            | zero =>
              rw [hgets]
              exact nashKeyLt_of_lt_of_le hres_r hrx
            | succ j =>
              have hj' : j + 1 < (r :: xs).length := by simpa using hj
              rw [hgets]
              exact hltb (j + 1) hj' (by omega)

/-- C6: for a non-empty table (uniform factor count `K ≥ 2`, so the sample
standard deviation is defined), `find_nash_equilibrium` returns the entity
with the smallest sample variance across its factors — equivalently the
smallest sample standard deviation, since `x ↦ √(x/(K-1))` is strictly
monotone on nonnegatives — with ties broken by the highest factor mean, and
ties on both broken by the first position in original row order (`i ≤ j`
for every tied `j`). -/
theorem nash_selects_min_std (K : ℕ) (rows : List Row) (hne : rows ≠ [])
    (hK : 2 ≤ K) (hlen : ∀ r ∈ rows, r.vals.length = K) :
    ∃ i, ∃ hi : i < rows.length,
      findNashEquilibrium rows = some ((rows.get ⟨i, hi⟩).country) ∧
      ∀ j, (hj : j < rows.length) →
        sampleVariance ((rows.get ⟨i, hi⟩).vals) <
            sampleVariance ((rows.get ⟨j, hj⟩).vals) ∨
        (sampleVariance ((rows.get ⟨i, hi⟩).vals) =
            sampleVariance ((rows.get ⟨j, hj⟩).vals) ∧
          factorMean ((rows.get ⟨j, hj⟩).vals) < factorMean ((rows.get ⟨i, hi⟩).vals)) ∨
        (sampleVariance ((rows.get ⟨i, hi⟩).vals) =
            sampleVariance ((rows.get ⟨j, hj⟩).vals) ∧
          factorMean ((rows.get ⟨i, hi⟩).vals) = factorMean ((rows.get ⟨j, hj⟩).vals) ∧
          i ≤ j) := by
  match rows, hne with
  | r :: rs, _ =>
    obtain ⟨i, hi, heq, hle, hltb⟩ := foldNash_spec rs r
    refine ⟨i, hi, ?_, ?_⟩
    · rw [findNashEquilibrium, heq]
    · intro j hj
      have h1 := hle j hj
      unfold nashKeyLe at h1
      rcases h1 with h1 | ⟨he, hm⟩
      · exact Or.inl h1
      · rcases lt_or_eq_of_le hm with hm | hm
        · exact Or.inr (Or.inl ⟨he, hm⟩)
        · refine Or.inr (Or.inr ⟨he, hm.symm, ?_⟩)
          by_contra hji
          push_neg at hji
          have h2 := hltb j hj hji
          unfold nashKeyLt at h2
          rcases h2 with h2 | ⟨_, h2⟩
          · linarith [he.le, he.ge]
          · linarith [hm.le, hm.ge]

/-- Witness for C6: on the spec's three-entity table, the Balance Evaluator
selects some lexicographically key-minimal row (it is `C`, the zero-variance
row). -/
theorem nash_selects_min_std_witness :
    (exRows ≠ [] ∧ 2 ≤ 2 ∧ ∀ r ∈ exRows, r.vals.length = 2) ∧
      ∃ i, ∃ hi : i < exRows.length,
        findNashEquilibrium exRows = some ((exRows.get ⟨i, hi⟩).country) ∧
        ∀ j, (hj : j < exRows.length) →
          sampleVariance ((exRows.get ⟨i, hi⟩).vals) <
              sampleVariance ((exRows.get ⟨j, hj⟩).vals) ∨
          (sampleVariance ((exRows.get ⟨i, hi⟩).vals) =
              sampleVariance ((exRows.get ⟨j, hj⟩).vals) ∧
            factorMean ((exRows.get ⟨j, hj⟩).vals) <
              factorMean ((exRows.get ⟨i, hi⟩).vals)) ∨
          (sampleVariance ((exRows.get ⟨i, hi⟩).vals) =
              sampleVariance ((exRows.get ⟨j, hj⟩).vals) ∧
            factorMean ((exRows.get ⟨i, hi⟩).vals) =
              factorMean ((exRows.get ⟨j, hj⟩).vals) ∧ i ≤ j) :=
  ⟨⟨by decide, by decide, by decide⟩,
    nash_selects_min_std 2 exRows (by decide) (by decide) (by decide)⟩

/-- C7 counterexample: invoked on the zero-row table, `find_nash_equilibrium`
fails with pandas' plain `IndexError` (from `df.iloc[0]`), which is not an
`EmptyInputError` — the repository defines no `EmptyInputError` class at
all, so the failure mode the claim names never occurs. -/
theorem nash_empty_fails_with_plain_index_error :
    findNashEquilibriumE [] = Except.error PyError.indexError ∧
      findNashEquilibriumE [] ≠ Except.error PyError.emptyInputError := by
  constructor
  · rfl
  · intro h
    rw [findNashEquilibriumE] at h
    injection h with h2
    exact PyError.noConfusion h2

/-- C7 (amended): the Balance Evaluator never returns null/absent for a
non-empty table — it returns the same entity the `Option` model returns —
and on a zero-row table it does fail, but with pandas' plain `IndexError`
raised by `df.iloc[0]`, not with a dedicated `EmptyInputError` (no such
class exists in the repository). -/
theorem nash_total_fails_with_index_error (rows : List Row) :
    (rows = [] → findNashEquilibriumE rows = Except.error PyError.indexError ∧
      findNashEquilibrium rows = none) ∧
    (rows ≠ [] → ∃ c, findNashEquilibriumE rows = Except.ok c ∧
      findNashEquilibrium rows = some c) := by
  constructor
  · intro h
    subst h
    exact ⟨rfl, rfl⟩
  · intro h
    match rows, h with
    | r :: rs, _ => exact ⟨_, rfl, rfl⟩

/-- Witness for the amended C7: evaluated on the zero-row table and on a
one-row table. -/
theorem nash_total_fails_with_index_error_witness :
    (findNashEquilibriumE [] = Except.error PyError.indexError ∧
      findNashEquilibrium [] = none) ∧
    ∃ c, findNashEquilibriumE [⟨"A", [1, 2]⟩] = Except.ok c ∧
      findNashEquilibrium [⟨"A", [1, 2]⟩] = some c :=
  ⟨(nash_total_fails_with_index_error []).1 rfl,
    (nash_total_fails_with_index_error [⟨"A", [1, 2]⟩]).2 (by simp)⟩

/-! ## Helper lemmas: column maxima (C8, C9) -/

theorem foldl_max_spec : ∀ (vs : List ℚ) (b : ℚ),
    (vs.foldl max b = b ∨ vs.foldl max b ∈ vs) ∧ b ≤ vs.foldl max b ∧
      ∀ v ∈ vs, v ≤ vs.foldl max b
  | [], b => ⟨Or.inl rfl, le_refl _, by simp⟩
  | v :: vs, b => by
    simp only [List.foldl_cons]
    obtain ⟨hmem, hle, hall⟩ := foldl_max_spec vs (max b v)
    refine ⟨?_, le_trans (le_max_left b v) hle, ?_⟩
    · rcases hmem with h | h
      · rcases max_choice b v with hm | hm
        · exact Or.inl (h.trans hm)
        · refine Or.inr ?_
          rw [h, hm]
          exact List.mem_cons_self v vs
      · exact Or.inr (List.mem_cons_of_mem v h)
    · intro w hw
      rcases List.mem_cons.mp hw with hw | hw
      · exact le_trans (le_of_eq hw) (le_trans (le_max_right b v) hle)
      · exact hall w hw

theorem listMax_spec {l : List ℚ} (h : l ≠ []) :
    listMax l ∈ l ∧ ∀ v ∈ l, v ≤ listMax l := by
  match l, h with
  | v :: vs, _ =>
    rw [listMax]
    obtain ⟨hmem, hle, hall⟩ := foldl_max_spec vs v
    constructor
    · rcases hmem with h | h
      · rw [h]
        exact List.mem_cons_self v vs
      · exact List.mem_cons_of_mem v h
    · intro w hw
      rcases List.mem_cons.mp hw with hw | hw
      · subst hw
        exact hle
      · exact hall w hw

theorem getD_map_range (f : ℕ → ℚ) (K k : ℕ) (hk : k < K) (d : ℚ) :
    ((List.range K).map f).getD k d = f k := by
  rw [List.getD_eq_getElem?_getD, List.getElem?_map, List.getElem?_range hk]
  rfl

/-- C8: `build_tradeoff_matrix` on a non-empty scored table with `topN ≥ 1`
restricts to the first `min(topN, rowCount)` rows (in order), every delta it
emits is `≤ 0`, and for every factor column at least one emitted row has
delta exactly `0` (the best-in-subset row). -/
theorem tradeoff_matrix_spec (K : ℕ) (rows : List ScoredRow) (topN : ℕ)
    (hne : rows ≠ []) (htop : 1 ≤ topN) :
    (buildTradeoffMatrix K rows topN).length = min topN rows.length ∧
    ((buildTradeoffMatrix K rows topN).map fun t => t.country) =
      ((rows.take topN).map fun r => r.country) ∧
    (∀ t ∈ buildTradeoffMatrix K rows topN, ∀ d ∈ t.deltas, d ≤ 0) ∧
    (∀ k, k < K → ∃ t ∈ buildTradeoffMatrix K rows topN, t.deltas.getD k 0 = 0) := by
  have hdfne : rows.take topN ≠ [] := by
    have hpos : 0 < (rows.take topN).length := by
      rw [List.length_take]
      have := List.length_pos.mpr hne
      omega
    exact List.ne_nil_of_length_pos hpos
  have hcolne : ∀ k, scoredColVals (rows.take topN) k ≠ [] := by
    intro k
    unfold scoredColVals
    simpa using hdfne
  refine ⟨?_, ?_, ?_, ?_⟩
  · rw [buildTradeoffMatrix]
    simp [List.length_take]
  · rw [buildTradeoffMatrix]
    simp only [List.map_map]
    rfl
  · intro t ht d hd
    rw [buildTradeoffMatrix] at ht
    simp only [List.mem_map] at ht
    obtain ⟨r, hr, hrt⟩ := ht
    rw [← hrt] at hd
    simp only [List.mem_map, List.mem_range] at hd
    obtain ⟨k, _, hk⟩ := hd
    have hmem : r.vals.getD k 0 ∈ scoredColVals (rows.take topN) k := by
      unfold scoredColVals
      exact List.mem_map_of_mem _ hr
    have hle := (listMax_spec (hcolne k)).2 _ hmem
    rw [← hk]
    exact round1_nonpos (by linarith)
  · intro k hkK
    obtain ⟨hmax_mem, _⟩ := listMax_spec (hcolne k)
    unfold scoredColVals at hmax_mem
    rw [List.mem_map] at hmax_mem
    obtain ⟨r, hr, hrmax⟩ := hmax_mem
    rw [buildTradeoffMatrix]
    refine ⟨_, List.mem_map_of_mem _ hr, ?_⟩
    show ((List.range K).map fun k2 =>
      round1 (r.vals.getD k2 0 - listMax (scoredColVals (rows.take topN) k2))).getD k 0 = 0
    rw [getD_map_range _ K k hkK, hrmax]
    unfold scoredColVals
    rw [sub_self, round1_zero]

/-- Witness for C8: applied to the three-entity scored table with
`topN = 2` and `K = 2`. -/
theorem tradeoff_matrix_spec_witness :
    (exScored ≠ [] ∧ 1 ≤ 2) ∧
      ((buildTradeoffMatrix 2 exScored 2).length = min 2 exScored.length ∧
      ((buildTradeoffMatrix 2 exScored 2).map fun t => t.country) =
        ((exScored.take 2).map fun r => r.country) ∧
      (∀ t ∈ buildTradeoffMatrix 2 exScored 2, ∀ d ∈ t.deltas, d ≤ 0) ∧
      (∀ k, k < 2 → ∃ t ∈ buildTradeoffMatrix 2 exScored 2, t.deltas.getD k 0 = 0)) :=
  ⟨⟨by decide, by decide⟩, tradeoff_matrix_spec 2 exScored 2 (by decide) (by decide)⟩

/-! ## Helper lemmas: first-argmax of a column (C9) -/

theorem idxmax_lt_length {l : List ℚ} (h : l ≠ []) : idxmax l < l.length := by
  apply List.findIdx_lt_length_of_exists
  obtain ⟨hmem, hall⟩ := listMax_spec h
  exact ⟨listMax l, hmem, by simpa using hall⟩

theorem idxmax_attains {l : List ℚ} (hlt : idxmax l < l.length) :
    ∀ w ∈ l, w ≤ l.get ⟨idxmax l, hlt⟩ := by
  have h := List.findIdx_get (w := hlt)
  simpa using h

theorem country_inj {rows : List Row} (hnd : (rows.map Row.country).Nodup)
    {a b : ℕ} (ha : a < rows.length) (hb : b < rows.length)
    (h : (rows.get ⟨a, ha⟩).country = (rows.get ⟨b, hb⟩).country) : a = b := by
  have hinj2 := List.nodup_iff_injective_get.mp hnd
  have hma : (rows.map Row.country).get ⟨a, by simpa using ha⟩ =
      (rows.map Row.country).get ⟨b, by simpa using hb⟩ := by
    rw [List.get_map, List.get_map]
    exact h
  exact congrArg Fin.val (hinj2 hma)

theorem match_bests_some : ∀ (bs : List String) (e : String),
    (match bs with
      | [] => none
      | b :: tail => if tail.all fun c => decide (c = b) then some b else none) = some e →
    ∀ b ∈ bs, b = e := by
  intro bs e h b hb
  cases bs with
  | nil => exact absurd hb (List.not_mem_nil b)
  | cons b0 tail =>
    have h2 : (if tail.all (fun c => decide (c = b0)) then some b0 else none) = some e := h
    by_cases hall : tail.all (fun c => decide (c = b0)) = true
    · rw [if_pos hall] at h2
      have hb0 : b0 = e := Option.some.inj h2
      rcases List.mem_cons.mp hb with hb | hb
      · exact hb ▸ hb0
      · have hbb := List.all_eq_true.mp hall b hb
        rw [decide_eq_true_eq] at hbb
        exact hbb.trans hb0
    · rw [if_neg hall] at h2
      exact Option.noConfusion h2

/-- C9: if `find_dominant_strategy` returns an entity, that entity's row
attains the column maximum in every factor; and when no row attains the
maximum of every factor, it returns `None`.  (The converse is not claimed:
a universal maximizer can still be missed when another row ties for a
column's maximum at an earlier index.) -/
theorem dominant_strategy_spec (K : ℕ) (rows : List Row) (hne : rows ≠ [])
    (hnd : (rows.map Row.country).Nodup) :
    (∀ e, findDominantStrategy K rows = some e →
      ∃ i, ∃ hi : i < rows.length, (rows.get ⟨i, hi⟩).country = e ∧
        ∀ k, k < K → ∀ j, (hj : j < rows.length) → valAt rows j k ≤ valAt rows i k) ∧
    ((¬ ∃ i, ∃ hi : i < rows.length,
        ∀ k, k < K → ∀ j, (hj : j < rows.length) → valAt rows j k ≤ valAt rows i k) →
      findDominantStrategy K rows = none) := by
  have hcolne : ∀ k, colVals rows k ≠ [] := by
    intro k
    unfold colVals
    simpa using hne
  have hcollen : ∀ k, (colVals rows k).length = rows.length := by
    intro k
    unfold colVals
    rw [List.length_map]
  have hidx : ∀ k, idxmax (colVals rows k) < rows.length := by
    intro k
    have := idxmax_lt_length (hcolne k)
    rwa [hcollen k] at this
  have hcolget : ∀ (k j : ℕ) (hj : j < rows.length),
      (colVals rows k).get ⟨j, by rw [hcollen k]; exact hj⟩ = valAt rows j k := by
    intro k j hj
    unfold colVals
    rw [List.get_map, valAt, valsAt_eq rows j hj]
  have hbest : ∀ (k : ℕ),
      (((rows.get? (idxmax (colVals rows k))).map Row.country).getD "") =
        (rows.get ⟨idxmax (colVals rows k), hidx k⟩).country := by
    intro k
    rw [List.get?_eq_get (hidx k)]
    rfl
  have hmaxat : ∀ (k j : ℕ) (hj : j < rows.length),
      valAt rows j k ≤ valAt rows (idxmax (colVals rows k)) k := by
    intro k j hj
    have h1 := idxmax_attains (l := colVals rows k)
      (by rw [hcollen k]; exact hidx k)
      ((colVals rows k).get ⟨j, by rw [hcollen k]; exact hj⟩) (List.get_mem _ _ _)
    rw [hcolget k j hj] at h1
    rw [hcolget k (idxmax (colVals rows k)) (hidx k)] at h1
    exact h1
  have hpart1 : ∀ e, findDominantStrategy K rows = some e →
      ∃ i, ∃ hi : i < rows.length, (rows.get ⟨i, hi⟩).country = e ∧
        ∀ k, k < K → ∀ j, (hj : j < rows.length) → valAt rows j k ≤ valAt rows i k := by
    intro e he
    rw [findDominantStrategy] at he
    have hall := match_bests_some _ e he
    cases hK0 : K with
    | zero =>
      subst hK0
      simp at he
    | succ K2 =>
      subst hK0
      set i0 := idxmax (colVals rows 0) with hi0def
      have hc0 : (rows.get ⟨i0, hidx 0⟩).country = e := by
        rw [← hbest 0]
        exact hall _ (List.mem_map_of_mem _ (List.mem_range.mpr (Nat.succ_pos K2)))
      refine ⟨i0, hidx 0, hc0, ?_⟩
      intro k hk j hj
      have hck : (rows.get ⟨idxmax (colVals rows k), hidx k⟩).country = e := by
        rw [← hbest k]
        exact hall _ (List.mem_map_of_mem _ (List.mem_range.mpr hk))
      have hik : idxmax (colVals rows k) = i0 :=
        country_inj hnd (hidx k) (hidx 0) (by rw [hck, hc0])
      have := hmaxat k j hj
      rwa [hik] at this
  refine ⟨hpart1, ?_⟩
  intro hnot
  cases hres : findDominantStrategy K rows with
  | none => rfl
  | some e =>
    obtain ⟨i, hi, _, hmax⟩ := hpart1 e hres
    exact absurd ⟨i, hi, hmax⟩ hnot

/-- Witness for C9: applied to the spec's three-entity table (which has no
dominant entity — the detector returns `None` there, making the second
implication effective). -/
theorem dominant_strategy_spec_witness :
    (exRows ≠ [] ∧ (exRows.map Row.country).Nodup) ∧
      ((∀ e, findDominantStrategy 2 exRows = some e →
        ∃ i, ∃ hi : i < exRows.length, (exRows.get ⟨i, hi⟩).country = e ∧
          ∀ k, k < 2 → ∀ j, (hj : j < exRows.length) →
            valAt exRows j k ≤ valAt exRows i k) ∧
      ((¬ ∃ i, ∃ hi : i < exRows.length,
          ∀ k, k < 2 → ∀ j, (hj : j < exRows.length) →
            valAt exRows j k ≤ valAt exRows i k) →
        findDominantStrategy 2 exRows = none)) :=
  ⟨⟨by decide, by decide⟩, dominant_strategy_spec 2 exRows (by decide) (by decide)⟩

end CountryAnalysis
